import Mathlib

/-!
Shallow embedding of `tno/quantum/optimization/qubo/solvers/_qaoa/_qaoa_result.py`
(`QAOAResult`), together with proofs of the specified properties.

Modelling choices:
* A `BitVector` is a `List Bool` (MSB first, matching the order of the
  characters of the bitstring keys of `raw_result`).
* Scores (energies) are rationals `ℚ`; every concrete score appearing in the
  specification (2.0, 1.0, 0.5, 5.0) is exactly representable.
* A Python dict is an insertion-ordered association list; iteration over the
  dict visits keys in that order.
* Exceptions are modelled with `Except QError`: a raised exception is an
  `Except.error`, raised synchronously (no partial result escapes the `do`
  chain).
-/

set_option autoImplicit false

namespace QAOA

/-- A candidate bitvector, most-significant bit first. -/
abbrev BitVector := List Bool

/-- Errors of the embedded code.  `shapeError` stands for the validation
error of `check_arraylike` (the spec's `ShapeError`); `emptyResultError`
stands for the `ValueError("Argument raw_result is empty")` raised by
`QAOAResult.from_result` (the spec's `EmptyResultError`); `typeError` stands
for the `TypeError` Python raises when `list(...)` is applied to a
non-iterable value. -/
inductive QError where
  | shapeError : QError
  | typeError : QError
  | emptyResultError : QError
  deriving DecidableEq

/-- A Python array-like value: a scalar or a (possibly nested) list. -/
inductive ArrayLike where
  | scalar : ℚ → ArrayLike
  | array : List ArrayLike → ArrayLike

/-- `isScalar x` is `true` iff `x` is a zero-dimensional scalar. -/
def isScalar : ArrayLike → Bool
  | .scalar _ => true
  | .array _ => false

/-- `ndim1 x` is `true` iff `x` is a one-dimensional array: a flat list of
scalars. -/
def ndim1 : ArrayLike → Bool
  | .scalar _ => false
  | .array xs => xs.all isScalar

/-- A one-dimensional array-like value built from a list of scalars. -/
def oneD (l : List ℚ) : ArrayLike :=
  .array (l.map .scalar)

/-- Extract the scalar of a zero-dimensional element, failing on a nested
array. -/
def asScalar : ArrayLike → Except QError ℚ
  | .scalar q => .ok q
  | .array _ => .error .shapeError

/-- Extract the scalars of a list of array-like elements, failing if any
element is itself an array. -/
def mapScalars : List ArrayLike → Except QError (List ℚ)
  | [] => .ok []
  | x :: xs => do
      let q ← asScalar x
      let qs ← mapScalars xs
      .ok (q :: qs)

/-- Modelled from the spec: `check_arraylike(x, name, ndim=1)` from
`tno.quantum.utils.validation` (a dependency not under `src/`) validates that
the given array-like input is one-dimensional and normalises it to a flat
one-dimensional numeric buffer, raising `ShapeError` otherwise ("all
array-like fields are validated to be one-dimensional before acceptance"). -/
def check_arraylike1 : ArrayLike → Except QError (List ℚ)
  | .scalar _ => .error .shapeError
  | .array xs => mapScalars xs

/-- `list(x)` in Python: succeeds on an iterable (an array), returning a
shallow copy of its elements, and raises `TypeError` on a scalar. -/
def pyList : ArrayLike → Except QError (List ArrayLike)
  | .scalar _ => .error .typeError
  | .array xs => .ok xs

/-- One entry of the frequency table: `(candidate, score, count)`. -/
abbrev FreqEntry := BitVector × ℚ × Nat

/-- Modelled from the spec: the `Freq` object (`FrequencyTable`) from
`tno.quantum.optimization.qubo.components` (not under `src/`) is an
insertion-ordered collection of `(candidate, score, count)` triples, built
once; iteration yields the triples in insertion order. -/
structure Freq where
  entries : List FreqEntry
  deriving DecidableEq

/-- Modelled from the spec: the `Freq(bitvectors, energies, num_occurrences)`
constructor builds one entry per index from three equal-length sequences and
fails with `ShapeError` if the three sequences have unequal length; it does
not deduplicate. -/
def mkFreq : List BitVector → List ℚ → List Nat → Except QError Freq
  | [], [], [] => .ok ⟨[]⟩
  | b :: bs, e :: es, c :: cs => do
      let fr ← mkFreq bs es cs
      .ok ⟨(b, e, c) :: fr.entries⟩
  | _, _, _ => .error .shapeError

/-- The strict preference used by the selection loop of
`QAOAResult.from_result`: the new entry `e` replaces the running best `b`
when `value < best_value or (value == best_value and occ > occ_best)`. -/
def klt (e b : FreqEntry) : Prop :=
  e.2.1 < b.2.1 ∨ (e.2.1 = b.2.1 ∧ e.2.2 > b.2.2)

instance (e b : FreqEntry) : Decidable (klt e b) := by
  unfold klt; infer_instance

/-- Non-strict counterpart of `klt`: at least as good. -/
def kle (e b : FreqEntry) : Prop :=
  e.2.1 < b.2.1 ∨ (e.2.1 = b.2.1 ∧ e.2.2 ≥ b.2.2)

/-- One step of the running-best loop in `QAOAResult.from_result`. -/
def selStep (best : Option FreqEntry) (e : FreqEntry) : Option FreqEntry :=
  match best with
  | none => some e
  | some b => if klt e b then some e else some b

/-- The selection loop of `QAOAResult.from_result`: a left-to-right scan of
the frequency table tracking a running best entry, starting from `None`. -/
def selectBest (entries : List FreqEntry) : Option FreqEntry :=
  entries.foldl selStep none

/-- The running-best scan once a first entry has been adopted. -/
def pick (b : FreqEntry) : List FreqEntry → FreqEntry
  | [] => b
  | e :: es => pick (if klt e b then e else b) es

/-- Evaluate the scoring function on every bitvector, additionally counting
the number of evaluations (`energies = [qubo.evaluate(b) for b in
bitvectors]` evaluates the QUBO exactly once per element). -/
def evalAll (f : BitVector → ℚ) : List BitVector → List ℚ × Nat
  | [] => ([], 0)
  | b :: bs =>
      let r := evalAll f bs
      (f b :: r.1, r.2 + 1)

/-- The table-building phase of `QAOAResult.from_result`: bitvectors are the
keys of `raw_result` in order, energies are the scoring function applied to
each bitvector (with the evaluation count returned alongside), counts are
the mapped values; the three lists are assembled into a `Freq`. -/
def buildFreq (f : BitVector → ℚ) (raw : List (BitVector × Nat)) :
    Except QError Freq × Nat :=
  let bitvectors := raw.map Prod.fst
  let r := evalAll f bitvectors
  let num_occurrences := raw.map Prod.snd
  (mkFreq bitvectors r.1 num_occurrences, r.2)

/-- The `properties` dict passed to `QAOAResult.from_result`: five array-like
trace fields and three opaque configuration identifiers. -/
structure Properties where
  init_beta : ArrayLike
  init_gamma : ArrayLike
  final_beta : ArrayLike
  final_gamma : ArrayLike
  expval_history : ArrayLike
  training_backend : String
  evaluation_backend : String
  optimizer : String

/-- The `QAOAResult` object: best candidate, best value, frequency table and
the validated (one-dimensional) trace fields. -/
structure QAOAResult where
  best_bitvector : BitVector
  best_value : ℚ
  freq : Freq
  init_beta : List ℚ
  init_gamma : List ℚ
  final_beta : List ℚ
  final_gamma : List ℚ
  expval_history : List ℚ
  training_backend : String
  evaluation_backend : String
  optimizer : String

/-- `QAOAResult.__init__`: stores the best bitvector, best value and
frequency table, and validates each of the five array-like trace fields to
be one-dimensional with `check_arraylike(..., ndim=1)` before acceptance.
No relation between the lengths of the five fields is checked. -/
def QAOAResult.init (best_bitvector : BitVector) (best_value : ℚ) (freq : Freq)
    (init_beta init_gamma final_beta final_gamma expval_history : ArrayLike)
    (training_backend evaluation_backend optimizer : String) :
    Except QError QAOAResult := do
  let ib ← check_arraylike1 init_beta
  let ig ← check_arraylike1 init_gamma
  let fb ← check_arraylike1 final_beta
  let fg ← check_arraylike1 final_gamma
  let eh ← check_arraylike1 expval_history
  .ok ⟨best_bitvector, best_value, freq, ib, ig, fb, fg, eh,
       training_backend, evaluation_backend, optimizer⟩

/-- The `if best_bitvector is None or best_value is None: raise ValueError`
check of `QAOAResult.from_result`. -/
def requireBest : Option FreqEntry → Except QError FreqEntry
  | none => .error .emptyResultError
  | some b => .ok b

/-- `QAOAResult.from_result`: builds the frequency table from `raw_result`
(scoring each key with `f`, standing for `qubo.evaluate`), scans it for the
best entry, raises on an empty `raw_result`, copies the five array-like
properties with `list(...)` and delegates to `QAOAResult.init`. -/
def QAOAResult.from_result (f : BitVector → ℚ) (raw_result : List (BitVector × Nat))
    (properties : Properties) : Except QError QAOAResult := do
  let freq ← (buildFreq f raw_result).1
  let best ← requireBest (selectBest freq.entries)
  let init_beta ← pyList properties.init_beta
  let init_gamma ← pyList properties.init_gamma
  let final_beta ← pyList properties.final_beta
  let final_gamma ← pyList properties.final_gamma
  let expval_history ← pyList properties.expval_history
  QAOAResult.init best.1 best.2.1 freq
    (.array init_beta) (.array init_gamma) (.array final_beta)
    (.array final_gamma) (.array expval_history)
    properties.training_backend properties.evaluation_backend
    properties.optimizer

/-- Left-to-right accumulation of binary digits, most-significant first. -/
def decodeFrom (a : Nat) : List Bool → Nat
  | [] => a
  | b :: l => decodeFrom (2 * a + (if b then 1 else 0)) l

/-- `int(str(bitvector), 2)`: decode a bitvector as an unsigned integer,
most-significant bit first. -/
def decode (bv : BitVector) : Nat :=
  decodeFrom 0 bv

/-- `itertools.product("01", repeat=n)`: every bitstring of length `n` in
binary-counting order (first position varying slowest), from all-zeros to
all-ones. -/
def xValues : Nat → List BitVector
  | 0 => [[]]
  | n + 1 => (xValues n).map (false :: ·) ++ (xValues n).map (true :: ·)

/-- The accumulation loop of `plot_shots_histogram`: `height[i] += n` for
each `(bitvector, _, n)` in the table, where `i = int(str(bitvector), 2)`;
an index beyond the end of `height` raises `IndexError` (modelled as
`none`). -/
def accumShots : List FreqEntry → List Nat → Option (List Nat)
  | [], h => some h
  | e :: es, h =>
      if hi : decode e.1 < h.length then
        accumShots es (h.set (decode e.1) (h.get ⟨decode e.1, hi⟩ + e.2.2))
      else
        none

/-- The bar heights computed by `plot_shots_histogram`: a zero-initialised
bucket per element of `x_values` (one for each of the `2 ^ n` bitstrings,
`n = len(self.best_bitvector)`), accumulated over the frequency table. -/
def plotShotsHeights (res : QAOAResult) : Option (List Nat) :=
  accumShots res.freq.entries
    (List.replicate (xValues res.best_bitvector.length).length 0)

/-! ### Order lemmas for the selection preference -/

theorem klt_irrefl (e : FreqEntry) : ¬ klt e e := by
  unfold klt
  rintro (h | ⟨-, h⟩)
  · exact lt_irrefl _ h
  · exact lt_irrefl _ h

theorem kle_refl (e : FreqEntry) : kle e e := by
  unfold kle
  exact Or.inr ⟨rfl, le_refl _⟩

theorem klt_kle (e b : FreqEntry) (h : klt e b) : kle e b := by
  rcases h with h | ⟨h1, h2⟩
  · exact Or.inl h
  · exact Or.inr ⟨h1, le_of_lt h2⟩

theorem not_klt_kle (e b : FreqEntry) (h : ¬ klt e b) : kle b e := by
  unfold klt at h
  push_neg at h
  rcases lt_trichotomy b.2.1 e.2.1 with h1 | h1 | h1
  · exact Or.inl h1
  · exact Or.inr ⟨h1, h.2 h1.symm⟩
  · exact absurd h1 (not_lt.mpr h.1)

theorem kle_trans (a b c : FreqEntry) (h1 : kle a b) (h2 : kle b c) : kle a c := by
  rcases h1 with h1 | ⟨h1, h1'⟩ <;> rcases h2 with h2 | ⟨h2, h2'⟩
  · exact Or.inl (lt_trans h1 h2)
  · exact Or.inl (h2 ▸ h1)
  · exact Or.inl (h1 ▸ h2)
  · exact Or.inr ⟨h1.trans h2, le_trans h2' h1'⟩

theorem kle_klt_trans (a b c : FreqEntry) (h1 : kle a b) (h2 : klt b c) : klt a c := by
  rcases h1 with h1 | ⟨h1, h1'⟩ <;> rcases h2 with h2 | ⟨h2, h2'⟩
  · exact Or.inl (lt_trans h1 h2)
  · exact Or.inl (h2 ▸ h1)
  · exact Or.inl (h1 ▸ h2)
  · exact Or.inr ⟨h1.trans h2, lt_of_lt_of_le h2' h1'⟩

theorem klt_kle_trans (a b c : FreqEntry) (h1 : klt a b) (h2 : kle b c) : klt a c := by
  rcases h1 with h1 | ⟨h1, h1'⟩ <;> rcases h2 with h2 | ⟨h2, h2'⟩
  · exact Or.inl (lt_trans h1 h2)
  · exact Or.inl (h2 ▸ h1)
  · exact Or.inl (h1 ▸ h2)
  · exact Or.inr ⟨h1.trans h2, lt_of_le_of_lt h2' h1'⟩

theorem klt_key_ne (a b : FreqEntry) (h : klt a b) :
    ¬ (a.2.1 = b.2.1 ∧ a.2.2 = b.2.2) := by
  rintro ⟨hs, hc⟩
  rcases h with h | ⟨-, h⟩
  · exact absurd hs (ne_of_lt h)
  · exact absurd hc (ne_of_gt h)

theorem kle_score_le (a b : FreqEntry) (h : kle a b) : a.2.1 ≤ b.2.1 := by
  rcases h with h | ⟨h, -⟩
  · exact le_of_lt h
  · exact le_of_eq h

theorem kle_count_ge (a b : FreqEntry) (h : kle a b) (hs : b.2.1 = a.2.1) :
    b.2.2 ≤ a.2.2 := by
  rcases h with h | ⟨-, h⟩
  · exact absurd hs.symm (ne_of_lt h)
  · exact h

/-! ### Characterisation of the running-best scan -/

theorem foldl_selStep_some (es : List FreqEntry) :
    ∀ b : FreqEntry, es.foldl selStep (some b) = some (pick b es) := by
  induction es with
  | nil => intro b; rfl
  | cons e es ih =>
      intro b
      show es.foldl selStep (selStep (some b) e) = _
      show es.foldl selStep (if klt e b then some e else some b) = _
      by_cases h : klt e b
      · simp only [if_pos h, pick, ih]
      · simp only [if_neg h, pick, ih]

theorem selectBest_cons (e : FreqEntry) (es : List FreqEntry) :
    selectBest (e :: es) = some (pick e es) := by
  show es.foldl selStep (selStep none e) = _
  exact foldl_selStep_some es e

/-- Full specification of `pick`: the result is at least as good as the
starting entry and every scanned entry, and it is either the starting entry
itself or a strictly better entry of the list that is strictly better than
every entry scanned before it. -/
theorem pick_spec (es : List FreqEntry) : ∀ b : FreqEntry,
    (kle (pick b es) b ∧ ∀ e ∈ es, kle (pick b es) e) ∧
    (pick b es = b ∨
      (klt (pick b es) b ∧ ∃ i, ∃ hi : i < es.length,
        es.get ⟨i, hi⟩ = pick b es ∧
        ∀ j, ∀ hj : j < es.length, j < i → klt (pick b es) (es.get ⟨j, hj⟩))) := by
  induction es with
  | nil =>
      intro b
      exact ⟨⟨kle_refl b, by intro e he; cases he⟩, Or.inl rfl⟩
  | cons e es ih =>
      intro b
      by_cases h : klt e b
      · have hp : pick b (e :: es) = pick e es := by
          show pick (if klt e b then e else b) es = pick e es
          rw [if_pos h]
        obtain ⟨⟨hre, hres⟩, hpos⟩ := ih e
        rw [hp]
        have hrb : klt (pick e es) b := kle_klt_trans _ _ _ hre h
        refine ⟨⟨klt_kle _ _ hrb, ?_⟩, ?_⟩
        · intro x hx
          rcases List.mem_cons.mp hx with hx | hx
          · exact hx ▸ hre
          · exact hres x hx
        · refine Or.inr ⟨hrb, ?_⟩
          rcases hpos with hre' | ⟨hlt, i, hi, heq, hearly⟩
          · exact ⟨0, by simp, by simpa using hre'.symm, by intro j hj hj0; omega⟩
          · refine ⟨i + 1, by simpa using hi, by simpa using heq, ?_⟩
            intro j hj hji
            match j, hj with
            | 0, hj => simpa using hlt
            | j + 1, hj =>
                have hj' : j < es.length := by simpa using hj
                have := hearly j hj' (by omega)
                simpa using this
      · have hp : pick b (e :: es) = pick b es := by
          show pick (if klt e b then e else b) es = pick b es
          rw [if_neg h]
        obtain ⟨⟨hrb, hres⟩, hpos⟩ := ih b
        rw [hp]
        have hbe : kle b e := not_klt_kle _ _ h
        refine ⟨⟨hrb, ?_⟩, ?_⟩
        · intro x hx
          rcases List.mem_cons.mp hx with hx | hx
          · exact hx ▸ kle_trans _ _ _ hrb hbe
          · exact hres x hx
        · rcases hpos with hre' | ⟨hlt, i, hi, heq, hearly⟩
          · exact Or.inl hre'
          · refine Or.inr ⟨hlt, i + 1, by simpa using hi, by simpa using heq, ?_⟩
            intro j hj hji
            match j, hj with
            | 0, hj => simpa using klt_kle_trans _ _ _ hlt hbe
            | j + 1, hj =>
                have hj' : j < es.length := by simpa using hj
                have := hearly j hj' (by omega)
                simpa using this

theorem klt_key_ne_rev (a b : FreqEntry) (h : klt a b) :
    ¬ (b.2.1 = a.2.1 ∧ b.2.2 = a.2.2) :=
  fun ⟨hs, hc⟩ => klt_key_ne a b h ⟨hs.symm, hc.symm⟩

theorem freq_entries_mk (l : List FreqEntry) : (Freq.mk l).entries = l := rfl

theorem qbind_ok {α β : Type} (a : α) (k : α → Except QError β) :
    (Except.ok a >>= k) = k a := rfl

theorem qbind_error {α β : Type} (e : QError) (k : α → Except QError β) :
    ((Except.error e : Except QError α) >>= k) = Except.error e := rfl

theorem except_bind_ne_error {α β : Type} {x : QError} {m : Except QError α}
    {k : α → Except QError β} (h1 : m ≠ .error x) (h2 : ∀ a, k a ≠ .error x) :
    (m >>= k) ≠ .error x := by
  cases m with
  | error e =>
      rw [qbind_error]
      intro hc
      injection hc with h
      exact h1 (h ▸ rfl)
  | ok a =>
      rw [qbind_ok]
      exact h2 a

/-! ### The frequency table built by `from_result` -/

theorem evalAll_fst (f : BitVector → ℚ) (l : List BitVector) :
    (evalAll f l).1 = l.map f := by
  induction l with
  | nil => rfl
  | cons b bs ih => simp [evalAll, ih]

theorem evalAll_snd (f : BitVector → ℚ) (l : List BitVector) :
    (evalAll f l).2 = l.length := by
  induction l with
  | nil => rfl
  | cons b bs ih => simp [evalAll, ih]

theorem mkFreq_map (f : BitVector → ℚ) (raw : List (BitVector × Nat)) :
    mkFreq (raw.map Prod.fst) ((raw.map Prod.fst).map f) (raw.map Prod.snd) =
      .ok ⟨raw.map fun p => (p.1, f p.1, p.2)⟩ := by
  induction raw with
  | nil => rfl
  | cons p ps ih =>
      simp only [List.map_cons, mkFreq, ih, qbind_ok, freq_entries_mk]

theorem buildFreq_fst (f : BitVector → ℚ) (raw : List (BitVector × Nat)) :
    (buildFreq f raw).1 = .ok ⟨raw.map fun p => (p.1, f p.1, p.2)⟩ := by
  show mkFreq (raw.map Prod.fst) ((evalAll f (raw.map Prod.fst)).1) (raw.map Prod.snd) = _
  rw [evalAll_fst]
  exact mkFreq_map f raw

theorem buildFreq_snd (f : BitVector → ℚ) (raw : List (BitVector × Nat)) :
    (buildFreq f raw).2 = raw.length := by
  show (evalAll f (raw.map Prod.fst)).2 = _
  rw [evalAll_snd, List.length_map]

theorem buildFreq_cons (f : BitVector → ℚ) (p : BitVector × Nat)
    (ps : List (BitVector × Nat)) :
    (buildFreq f (p :: ps)).1 =
      .ok ⟨(p.1, f p.1, p.2) :: (ps.map fun q => (q.1, f q.1, q.2))⟩ := by
  rw [buildFreq_fst, List.map_cons]

theorem pyList_ne_error_empty (x : ArrayLike) :
    pyList x ≠ .error .emptyResultError := by
  cases x <;> simp [pyList]

theorem asScalar_ne_error_empty (x : ArrayLike) :
    asScalar x ≠ .error .emptyResultError := by
  cases x <;> simp [asScalar]

theorem mapScalars_ne_error_empty (xs : List ArrayLike) :
    mapScalars xs ≠ .error .emptyResultError := by
  induction xs with
  | nil => simp [mapScalars]
  | cons x xs ih =>
      refine except_bind_ne_error (asScalar_ne_error_empty x) fun q => ?_
      refine except_bind_ne_error ih fun qs => ?_
      simp

theorem check_arraylike1_ne_error_empty (x : ArrayLike) :
    check_arraylike1 x ≠ .error .emptyResultError := by
  cases x with
  | scalar q => simp [check_arraylike1]
  | array xs => exact mapScalars_ne_error_empty xs

theorem init_ne_error_empty (bb : BitVector) (bv : ℚ) (fr : Freq)
    (a1 a2 a3 a4 a5 : ArrayLike) (tb eb op : String) :
    QAOAResult.init bb bv fr a1 a2 a3 a4 a5 tb eb op ≠ .error .emptyResultError := by
  unfold QAOAResult.init
  refine except_bind_ne_error (check_arraylike1_ne_error_empty a1) fun ib => ?_
  refine except_bind_ne_error (check_arraylike1_ne_error_empty a2) fun ig => ?_
  refine except_bind_ne_error (check_arraylike1_ne_error_empty a3) fun fb => ?_
  refine except_bind_ne_error (check_arraylike1_ne_error_empty a4) fun fg => ?_
  refine except_bind_ne_error (check_arraylike1_ne_error_empty a5) fun eh => ?_
  simp

theorem from_result_cons_ne_error_empty (f : BitVector → ℚ) (p : BitVector × Nat)
    (ps : List (BitVector × Nat)) (props : Properties) :
    QAOAResult.from_result f (p :: ps) props ≠ .error .emptyResultError := by
  unfold QAOAResult.from_result
  rw [buildFreq_cons, qbind_ok, freq_entries_mk, selectBest_cons]
  rw [show requireBest (some (pick (p.1, f p.1, p.2)
        (ps.map fun q => (q.1, f q.1, q.2)))) =
      .ok (pick (p.1, f p.1, p.2) (ps.map fun q => (q.1, f q.1, q.2))) from rfl]
  rw [qbind_ok]
  refine except_bind_ne_error (pyList_ne_error_empty _) fun ib => ?_
  refine except_bind_ne_error (pyList_ne_error_empty _) fun ig => ?_
  refine except_bind_ne_error (pyList_ne_error_empty _) fun fb => ?_
  refine except_bind_ne_error (pyList_ne_error_empty _) fun fg => ?_
  refine except_bind_ne_error (pyList_ne_error_empty _) fun eh => ?_
  exact init_ne_error_empty _ _ _ _ _ _ _ _ _ _ _

/-! ### Concrete inputs used by witnesses and the worked examples -/

/-- The raw sample map of the spec's examples:
`{"00": 5, "01": 3, "10": 3, "11": 1}`. -/
def rawEx : List (BitVector × Nat) :=
  [([false, false], 5), ([false, true], 3), ([true, false], 3), ([true, true], 1)]

/-- Scores `{"00": 2.0, "01": 1.0, "10": 1.0, "11": 5.0}`. -/
def scoreEx1 : BitVector → ℚ
  | [false, false] => 2
  | [false, true] => 1
  | [true, false] => 1
  | [true, true] => 5
  | _ => 0

/-- Scores `{"00": 2.0, "01": 1.0, "10": 0.5, "11": 5.0}`. -/
def scoreEx2 : BitVector → ℚ
  | [false, false] => 2
  | [false, true] => 1
  | [true, false] => mkRat 1 2
  | [true, true] => 5
  | _ => 0

/-- A well-formed `properties` dict whose five trace fields are
one-dimensional arrays. -/
def propsEx : Properties :=
  ⟨.array [.scalar 0], .array [.scalar 0], .array [.scalar 0],
   .array [.scalar 0], .array [.scalar 0], "default", "default", "basinhopping"⟩

/-- A small concrete frequency table with a two-key tie. -/
def entriesEx : List FreqEntry :=
  [([false, false], 2, 5), ([false, true], 1, 3), ([true, false], 1, 3),
   ([true, true], 5, 1)]

/-! ### C1: the best-candidate selection -/

/-- C1: for every non-empty frequency table (the table `from_result` scans),
the selection loop returns exactly one entry of the table: an entry whose
score is minimal across the table, whose occurrence count is maximal among
entries sharing that minimal score, and which is the first-encountered entry
(in input-map order) among entries tied on both score and count. -/
theorem best_candidate_selection (l : List FreqEntry) (hne : l ≠ []) :
    ∃ i, ∃ hi : i < l.length,
      selectBest l = some (l.get ⟨i, hi⟩) ∧
      (∀ j, ∀ hj : j < l.length, (l.get ⟨i, hi⟩).2.1 ≤ (l.get ⟨j, hj⟩).2.1) ∧
      (∀ j, ∀ hj : j < l.length, (l.get ⟨j, hj⟩).2.1 = (l.get ⟨i, hi⟩).2.1 →
        (l.get ⟨j, hj⟩).2.2 ≤ (l.get ⟨i, hi⟩).2.2) ∧
      (∀ j, ∀ hj : j < l.length, j < i →
        ¬ ((l.get ⟨j, hj⟩).2.1 = (l.get ⟨i, hi⟩).2.1 ∧
           (l.get ⟨j, hj⟩).2.2 = (l.get ⟨i, hi⟩).2.2)) := by
  match l, hne with
  | e :: es, _ =>
    obtain ⟨⟨hre, hres⟩, hpos⟩ := pick_spec es e
    have hkle : ∀ j, ∀ hj : j < (e :: es).length,
        kle (pick e es) ((e :: es).get ⟨j, hj⟩) := by
      intro j hj
      have hmem := List.get_mem (e :: es) j hj
      rcases List.mem_cons.mp hmem with hx | hx
      · rw [hx]; exact hre
      · exact hres _ hx
    have hfirst : ∃ i, ∃ hi : i < (e :: es).length,
        (e :: es).get ⟨i, hi⟩ = pick e es ∧
        ∀ j, ∀ hj : j < (e :: es).length, j < i →
          klt (pick e es) ((e :: es).get ⟨j, hj⟩) := by
      rcases hpos with hre' | ⟨hlt, i, hi, heq, hearly⟩
      · exact ⟨0, by simp, hre'.symm, fun j hj h0 => absurd h0 (by omega)⟩
      · refine ⟨i + 1, by simpa using hi, by simpa using heq, ?_⟩
        intro j hj hji
        match j, hj with
        | 0, hj => simpa using hlt
        | j + 1, hj =>
            have hj' : j < es.length := by simpa using hj
            simpa using hearly j hj' (by omega)
    obtain ⟨i, hi, heq, hearly⟩ := hfirst
    refine ⟨i, hi, ?_, ?_, ?_, ?_⟩
    · rw [selectBest_cons, heq]
    · intro j hj
      rw [heq]
      exact kle_score_le _ _ (hkle j hj)
    · intro j hj
      rw [heq]
      intro hs
      exact kle_count_ge _ _ (hkle j hj) hs
    · intro j hj hji
      rw [heq]
      exact klt_key_ne_rev _ _ (hearly j hj hji)

/-- Witness for C1, at the spec's tied example table. -/
theorem best_candidate_selection_witness :
    entriesEx ≠ [] ∧
    ∃ i, ∃ hi : i < entriesEx.length,
      selectBest entriesEx = some (entriesEx.get ⟨i, hi⟩) ∧
      (∀ j, ∀ hj : j < entriesEx.length,
        (entriesEx.get ⟨i, hi⟩).2.1 ≤ (entriesEx.get ⟨j, hj⟩).2.1) ∧
      (∀ j, ∀ hj : j < entriesEx.length,
        (entriesEx.get ⟨j, hj⟩).2.1 = (entriesEx.get ⟨i, hi⟩).2.1 →
        (entriesEx.get ⟨j, hj⟩).2.2 ≤ (entriesEx.get ⟨i, hi⟩).2.2) ∧
      (∀ j, ∀ hj : j < entriesEx.length, j < i →
        ¬ ((entriesEx.get ⟨j, hj⟩).2.1 = (entriesEx.get ⟨i, hi⟩).2.1 ∧
           (entriesEx.get ⟨j, hj⟩).2.2 = (entriesEx.get ⟨i, hi⟩).2.2)) :=
  ⟨by decide, best_candidate_selection entriesEx (by decide)⟩

/-! ### C2: the empty-map error -/

/-- C2: building a `QAOAResult` with `from_result` fails with the
empty-result error exactly when the raw sample map is empty; the failure is
an `Except.error`, so no result object is returned, and for a non-empty map
this error is never raised. -/
theorem from_result_error_empty_iff (f : BitVector → ℚ) (props : Properties)
    (raw : List (BitVector × Nat)) :
    QAOAResult.from_result f raw props = .error .emptyResultError ↔ raw = [] := by
  cases raw with
  | nil => exact ⟨fun _ => rfl, fun _ => rfl⟩
  | cons p ps =>
      constructor
      · intro h
        exact absurd h (from_result_cons_ne_error_empty f p ps props)
      · intro h
        exact List.noConfusion h

/-! ### C6: the frequency table is 1:1 with the raw map -/

/-- C6: `from_result` builds the frequency table with exactly one entry per
key of the raw map, in the map's order: entry `i` is
`(key i, score (key i), count i)`; the table length equals the number of
keys; and the scoring function is evaluated exactly once per key during the
build (the evaluation counter of `buildFreq` equals the number of keys). -/
theorem from_result_freq_one_entry_per_key (f : BitVector → ℚ)
    (raw : List (BitVector × Nat)) :
    (buildFreq f raw).1 = .ok ⟨raw.map fun p => (p.1, f p.1, p.2)⟩ ∧
    (raw.map fun p => (p.1, f p.1, p.2)).length = raw.length ∧
    (buildFreq f raw).2 = raw.length :=
  ⟨buildFreq_fst f raw, by simp, buildFreq_snd f raw⟩

/-! ### C7: the worked examples -/

/-- C7: on the map `{"00": 5, "01": 3, "10": 3, "11": 1}` with scores
`2.0, 1.0, 1.0, 5.0`, `from_result` returns best candidate `"01"` with best
value `1.0` (first-encountered wins the two-key tie with `"10"`); with
scores `2.0, 1.0, 0.5, 5.0` it returns best candidate `"10"` with best
value `0.5`. -/
theorem from_result_tie_break_examples :
    ((QAOAResult.from_result scoreEx1 rawEx propsEx).toOption.map
        fun r => (r.best_bitvector, r.best_value)) = some ([false, true], 1) ∧
    ((QAOAResult.from_result scoreEx2 rawEx propsEx).toOption.map
        fun r => (r.best_bitvector, r.best_value)) = some ([true, false], mkRat 1 2) := by
  constructor <;> rfl

/-! ### Validation behaviour of `QAOAResult.__init__` -/

theorem bind_ok_isOk {α β : Type} (m : Except QError α) (g : α → β) :
    (m >>= fun a => Except.ok (g a)).isOk = m.isOk := by
  cases m <;> rfl

theorem mapScalars_map_scalar (l : List ℚ) :
    mapScalars (l.map .scalar) = .ok l := by
  induction l with
  | nil => rfl
  | cons q qs ih =>
      show ((mapScalars (qs.map .scalar)) >>= fun r => Except.ok (q :: r)) = _
      rw [ih, qbind_ok]

theorem check_arraylike1_oneD (l : List ℚ) :
    check_arraylike1 (oneD l) = .ok l :=
  mapScalars_map_scalar l

theorem mapScalars_isOk (xs : List ArrayLike) :
    (mapScalars xs).isOk = xs.all isScalar := by
  induction xs with
  | nil => rfl
  | cons x xs ih =>
      cases x with
      | scalar q =>
          show ((mapScalars xs) >>= fun r => Except.ok (q :: r)).isOk = _
          rw [bind_ok_isOk, ih]
          simp [isScalar]
      | array ys => simp [mapScalars, asScalar, qbind_error, isScalar, Except.isOk, Except.toBool]

theorem check_arraylike1_isOk (x : ArrayLike) :
    (check_arraylike1 x).isOk = ndim1 x := by
  cases x with
  | scalar q => rfl
  | array xs => exact mapScalars_isOk xs

theorem mapScalars_fail (xs : List ArrayLike) (h : xs.all isScalar = false) :
    mapScalars xs = .error .shapeError := by
  induction xs with
  | nil => simp at h
  | cons x xs ih =>
      cases x with
      | array ys => rfl
      | scalar q =>
          have h' : xs.all isScalar = false := by simpa [isScalar] using h
          show ((mapScalars xs) >>= fun r => Except.ok (q :: r)) = _
          rw [ih h', qbind_error]

theorem check_arraylike1_fail (x : ArrayLike) (h : ndim1 x = false) :
    check_arraylike1 x = .error .shapeError := by
  cases x with
  | scalar q => rfl
  | array xs => exact mapScalars_fail xs h

theorem check_arraylike1_ok (x : ArrayLike) (h : ndim1 x = true) :
    ∃ l, check_arraylike1 x = .ok l := by
  have := check_arraylike1_isOk x
  rw [h] at this
  cases hc : check_arraylike1 x with
  | error e => rw [hc] at this; exact absurd this (by simp [Except.isOk, Except.toBool])
  | ok l => exact ⟨l, rfl⟩

theorem init_isOk (bb : BitVector) (bv : ℚ) (fr : Freq)
    (a1 a2 a3 a4 a5 : ArrayLike) (tb eb op : String) :
    (QAOAResult.init bb bv fr a1 a2 a3 a4 a5 tb eb op).isOk =
      (ndim1 a1 && ndim1 a2 && ndim1 a3 && ndim1 a4 && ndim1 a5) := by
  unfold QAOAResult.init
  rw [← check_arraylike1_isOk a1, ← check_arraylike1_isOk a2,
      ← check_arraylike1_isOk a3, ← check_arraylike1_isOk a4,
      ← check_arraylike1_isOk a5]
  cases check_arraylike1 a1 with
  | error e => simp [qbind_error, Except.isOk, Except.toBool]
  | ok l1 =>
      rw [qbind_ok]
      cases check_arraylike1 a2 with
      | error e => simp [qbind_error, Except.isOk, Except.toBool]
      | ok l2 =>
          rw [qbind_ok]
          cases check_arraylike1 a3 with
          | error e => simp [qbind_error, Except.isOk, Except.toBool]
          | ok l3 =>
              rw [qbind_ok]
              cases check_arraylike1 a4 with
              | error e => simp [qbind_error, Except.isOk, Except.toBool]
              | ok l4 =>
                  rw [qbind_ok]
                  cases check_arraylike1 a5 with
                  | error e => simp [qbind_error, Except.isOk, Except.toBool]
                  | ok l5 => simp [qbind_ok, Except.isOk, Except.toBool]

/-! ### C9: all five trace fields are validated to be one-dimensional -/

/-- C9: `QAOAResult.__init__` accepts its arguments exactly when each of the
five array-like trace fields (`init_beta`, `init_gamma`, `final_beta`,
`final_gamma`, `expval_history`) is one-dimensional, and it fails (with
`ShapeError`, synchronously — the `Except.error` means no result value is
produced) exactly when at least one of them is not one-dimensional. -/
theorem init_validates_one_dimensional (bb : BitVector) (bv : ℚ) (fr : Freq)
    (a1 a2 a3 a4 a5 : ArrayLike) (tb eb op : String) :
    ((QAOAResult.init bb bv fr a1 a2 a3 a4 a5 tb eb op).isOk = true ↔
      (ndim1 a1 = true ∧ ndim1 a2 = true ∧ ndim1 a3 = true ∧
       ndim1 a4 = true ∧ ndim1 a5 = true)) ∧
    (QAOAResult.init bb bv fr a1 a2 a3 a4 a5 tb eb op = .error .shapeError ↔
      ¬ (ndim1 a1 = true ∧ ndim1 a2 = true ∧ ndim1 a3 = true ∧
         ndim1 a4 = true ∧ ndim1 a5 = true)) := by
  have hA : (QAOAResult.init bb bv fr a1 a2 a3 a4 a5 tb eb op).isOk = true ↔
      (ndim1 a1 = true ∧ ndim1 a2 = true ∧ ndim1 a3 = true ∧
       ndim1 a4 = true ∧ ndim1 a5 = true) := by
    rw [init_isOk]
    simp [Bool.and_eq_true, and_assoc]
  refine ⟨hA, ?_, ?_⟩
  · intro he hall
    have := hA.mpr hall
    rw [he] at this
    exact absurd this (by simp [Except.isOk, Except.toBool])
  · intro h
    unfold QAOAResult.init
    by_cases h1 : ndim1 a1 = true
    · obtain ⟨l1, hl1⟩ := check_arraylike1_ok a1 h1
      rw [hl1, qbind_ok]
      by_cases h2 : ndim1 a2 = true
      · obtain ⟨l2, hl2⟩ := check_arraylike1_ok a2 h2
        rw [hl2, qbind_ok]
        by_cases h3 : ndim1 a3 = true
        · obtain ⟨l3, hl3⟩ := check_arraylike1_ok a3 h3
          rw [hl3, qbind_ok]
          by_cases h4 : ndim1 a4 = true
          · obtain ⟨l4, hl4⟩ := check_arraylike1_ok a4 h4
            rw [hl4, qbind_ok]
            by_cases h5 : ndim1 a5 = true
            · exact absurd ⟨h1, h2, h3, h4, h5⟩ h
            · rw [check_arraylike1_fail a5 (by simpa using h5), qbind_error]
          · rw [check_arraylike1_fail a4 (by simpa using h4), qbind_error]
        · rw [check_arraylike1_fail a3 (by simpa using h3), qbind_error]
      · rw [check_arraylike1_fail a2 (by simpa using h2), qbind_error]
    · rw [check_arraylike1_fail a1 (by simpa using h1), qbind_error]

/-! ### C3: no equal-length check between `final_beta` and `final_gamma` -/

/-- Counterexample to C3: constructing a result with a one-dimensional
`final_beta` of length 3 and a one-dimensional `final_gamma` of length 4
succeeds — no `ShapeError` (nor any other error) is raised at construction
time. -/
theorem init_unequal_beta_gamma_succeeds :
    (QAOAResult.init [false] 0 ⟨[]⟩ (oneD [0]) (oneD [0])
        (oneD [1, 2, 3]) (oneD [1, 2, 3, 4]) (oneD [0])
        "default" "default" "basinhopping").isOk = true := by
  rfl

/-- C3 (amended): construction validates only that each trace field is
one-dimensional; it performs no equal-length check between `final_beta` and
`final_gamma`, so a `QAOAResult` is produced for one-dimensional inputs of
any (possibly unequal) lengths, the fields stored as given. -/
theorem init_no_length_equality_check (bb : BitVector) (bv : ℚ) (fr : Freq)
    (l1 l2 l3 l4 l5 : List ℚ) (tb eb op : String) :
    QAOAResult.init bb bv fr (oneD l1) (oneD l2) (oneD l3) (oneD l4) (oneD l5)
        tb eb op =
      .ok ⟨bb, bv, fr, l1, l2, l3, l4, l5, tb, eb, op⟩ := by
  unfold QAOAResult.init
  rw [check_arraylike1_oneD, qbind_ok, check_arraylike1_oneD, qbind_ok,
      check_arraylike1_oneD, qbind_ok, check_arraylike1_oneD, qbind_ok,
      check_arraylike1_oneD, qbind_ok]

/-! ### Decoding bitvectors and the histogram domain -/

theorem decodeFrom_eq (l : List Bool) : ∀ a : Nat,
    decodeFrom a l = a * 2 ^ l.length + decode l := by
  induction l with
  | nil => intro a; simp [decodeFrom, decode]
  | cons b bs ih =>
      intro a
      show decodeFrom (2 * a + (if b then 1 else 0)) bs = _
      rw [ih]
      have hd : decode (b :: bs) = (if b then 1 else 0) * 2 ^ bs.length + decode bs := by
        show decodeFrom (2 * 0 + (if b then 1 else 0)) bs = _
        rw [ih]
        ring
      rw [hd, List.length_cons, pow_succ]
      ring

theorem decode_cons_false (l : List Bool) : decode (false :: l) = decode l := rfl

theorem decode_cons_true (l : List Bool) :
    decode (true :: l) = 2 ^ l.length + decode l := by
  show decodeFrom (2 * 0 + 1) l = _
  rw [decodeFrom_eq]
  ring

theorem decode_lt (bv : BitVector) : decode bv < 2 ^ bv.length := by
  induction bv with
  | nil => simp [decode, decodeFrom]
  | cons b bs ih =>
      have hd : decode (b :: bs) = (if b then 1 else 0) * 2 ^ bs.length + decode bs := by
        show decodeFrom (2 * 0 + (if b then 1 else 0)) bs = _
        rw [decodeFrom_eq]
        ring
      have h2 : 0 < 2 ^ bs.length := pow_pos (by norm_num) bs.length
      rw [hd, List.length_cons, pow_succ]
      cases b <;> simp <;> omega

theorem xValues_length (n : Nat) : (xValues n).length = 2 ^ n := by
  induction n with
  | zero => rfl
  | succ n ih =>
      simp only [xValues, List.length_append, List.length_map, ih, pow_succ]
      omega

theorem xValues_get (n : Nat) : ∀ i, ∀ hi : i < (xValues n).length,
    decode ((xValues n).get ⟨i, hi⟩) = i ∧ ((xValues n).get ⟨i, hi⟩).length = n := by
  induction n with
  | zero =>
      intro i hi
      match i, hi with
      | 0, _ => exact ⟨rfl, rfl⟩
  | succ n ih =>
      intro i hi
      have hlen : (xValues n).length = 2 ^ n := xValues_length n
      have hp : 2 ^ (n + 1) = 2 ^ n * 2 := pow_succ 2 n
      have hi1 : i < 2 ^ n * 2 := by
        have := xValues_length (n + 1)
        omega
      by_cases hc : i < 2 ^ n
      · have hlt : i < (xValues n).length := by omega
        have hg : (xValues (n + 1)).get ⟨i, hi⟩ = false :: (xValues n).get ⟨i, hlt⟩ := by
          rw [List.get_eq_getElem, List.get_eq_getElem]
          show (((xValues n).map (false :: ·)) ++ ((xValues n).map (true :: ·)))[i] = _
          rw [List.getElem_append_left (by simpa using hlt)]
          rw [List.getElem_map]
        obtain ⟨hd, hl⟩ := ih i hlt
        constructor
        · rw [hg, decode_cons_false, hd]
        · rw [hg, List.length_cons, hl]
      · have hlt : i - 2 ^ n < (xValues n).length := by omega
        have hle : ((xValues n).map (false :: ·)).length ≤ i := by
          simp only [List.length_map]
          omega
        have hg : (xValues (n + 1)).get ⟨i, hi⟩ =
            true :: (xValues n).get ⟨i - 2 ^ n, hlt⟩ := by
          rw [List.get_eq_getElem, List.get_eq_getElem]
          show (((xValues n).map (false :: ·)) ++ ((xValues n).map (true :: ·)))[i] = _
          rw [List.getElem_append_right hle]
          rw [List.getElem_map]
          simp only [List.length_map, hlen]
        obtain ⟨hd, hl⟩ := ih (i - 2 ^ n) hlt
        constructor
        · rw [hg, decode_cons_true, hl, hd]
          omega
        · rw [hg, List.length_cons, hl]

/-! ### The histogram accumulation loop -/

theorem sum_set_add (l : List Nat) : ∀ (i : Nat) (hi : i < l.length) (n : Nat),
    (l.set i (l.get ⟨i, hi⟩ + n)).sum = l.sum + n := by
  induction l with
  | nil => intro i hi n; simp at hi
  | cons x xs ih =>
      intro i hi n
      cases i with
      | zero =>
          simp only [List.set, List.sum_cons, List.get_eq_getElem,
            List.getElem_cons_zero]
          omega
      | succ i =>
          have hi' : i < xs.length := by simpa using hi
          have hstep : (x :: xs).set (i + 1) ((x :: xs).get ⟨i + 1, hi⟩ + n) =
              x :: xs.set i (xs.get ⟨i, hi'⟩ + n) := by
            simp [List.set]
          rw [hstep]
          simp only [List.sum_cons]
          rw [ih i hi' n]
          omega

theorem accumShots_some_length : ∀ (es : List FreqEntry) (h h' : List Nat),
    accumShots es h = some h' → h'.length = h.length := by
  intro es
  induction es with
  | nil =>
      intro h h' hs
      unfold accumShots at hs
      injection hs with hs
      rw [hs]
  | cons e es ih =>
      intro h h' hs
      unfold accumShots at hs
      split at hs
      · have := ih _ _ hs
        simpa [List.length_set] using this
      · exact Option.noConfusion hs

theorem accumShots_some_sum : ∀ (es : List FreqEntry) (h h' : List Nat),
    accumShots es h = some h' →
    h'.sum = h.sum + ((es.map fun e => e.2.2).sum) := by
  intro es
  induction es with
  | nil =>
      intro h h' hs
      unfold accumShots at hs
      injection hs with hs
      rw [hs]
      simp
  | cons e es ih =>
      intro h h' hs
      unfold accumShots at hs
      split at hs
      · next hd =>
          have h1 := ih _ _ hs
          have h2 := sum_set_add h (decode e.1) hd e.2.2
          simp only [List.map_cons, List.sum_cons]
          omega
      · exact Option.noConfusion hs

theorem accumShots_some_get : ∀ (es : List FreqEntry) (h h' : List Nat),
    accumShots es h = some h' → ∀ i, ∀ hi : i < h.length, ∀ hi' : i < h'.length,
    h'.get ⟨i, hi'⟩ =
      h.get ⟨i, hi⟩ + ((es.filter fun e => decode e.1 == i).map fun e => e.2.2).sum := by
  intro es
  induction es with
  | nil =>
      intro h h' hs i hi hi'
      unfold accumShots at hs
      injection hs with hs
      subst hs
      simp [List.filter]
  | cons e es ih =>
      intro h h' hs i hi hi'
      unfold accumShots at hs
      split at hs
      · next hd =>
          have hset : i < (h.set (decode e.1) (h.get ⟨decode e.1, hd⟩ + e.2.2)).length := by
            simpa [List.length_set] using hi
          have h1 := ih _ _ hs i hset hi'
          by_cases hee : decode e.1 = i
          · subst hee
            have hg : (h.set (decode e.1)
                  (h.get ⟨decode e.1, hd⟩ + e.2.2)).get ⟨decode e.1, hset⟩ =
                h.get ⟨decode e.1, hd⟩ + e.2.2 := by
              rw [List.get_eq_getElem]
              exact List.getElem_set_self _
            rw [h1, hg, List.filter_cons_of_pos (by simp)]
            simp only [List.map_cons, List.sum_cons]
            omega
          · have hg : (h.set (decode e.1)
                  (h.get ⟨decode e.1, hd⟩ + e.2.2)).get ⟨i, hset⟩ =
                h.get ⟨i, hi⟩ := List.getElem_set_ne hee hset
            rw [h1, hg, List.filter_cons_of_neg (by simp [hee])]
      · exact Option.noConfusion hs

theorem accumShots_isSome : ∀ (es : List FreqEntry) (h : List Nat),
    (∀ e ∈ es, decode e.1 < h.length) → ∃ h', accumShots es h = some h' := by
  intro es
  induction es with
  | nil => intro h _; exact ⟨h, rfl⟩
  | cons e es ih =>
      intro h hall
      have hd : decode e.1 < h.length := hall e (by simp)
      unfold accumShots
      rw [dif_pos hd]
      exact ih _ fun x hx => by
        simpa [List.length_set] using hall x (by simp [hx])

/-- A concrete result over two-bit candidates, used by the witnesses. -/
def resEx : QAOAResult :=
  ⟨[false, true], 1,
   ⟨[([false, false], 2, 5), ([false, true], 1, 3), ([true, false], 1, 3),
     ([true, true], 5, 1)]⟩,
   [0], [0], [0], [0], [0], "default", "default", "basinhopping"⟩

/-- A result whose frequency table holds a candidate longer than the best
bitvector: the histogram accumulation indexes out of bounds. -/
def badRes : QAOAResult :=
  ⟨[], 0, ⟨[([true], 0, 1)]⟩, [0], [0], [0], [0], [0],
   "default", "default", "basinhopping"⟩

/-! ### C4: histogram bucket count and total height -/

/-- C4: when every candidate in the frequency table is `n`-bit
(`n = len(best_bitvector)`), `plot_shots_histogram` computes a height list
with exactly `2 ^ n` buckets (one per element of `x_values`, which also has
`2 ^ n` elements), and the heights sum to the total of all occurrence counts
in the table. -/
theorem shots_histogram_totals (res : QAOAResult)
    (hlen : ∀ e ∈ res.freq.entries, e.1.length = res.best_bitvector.length) :
    ∃ hs, plotShotsHeights res = some hs ∧
      hs.length = 2 ^ res.best_bitvector.length ∧
      (xValues res.best_bitvector.length).length = 2 ^ res.best_bitvector.length ∧
      hs.sum = (res.freq.entries.map fun e => e.2.2).sum := by
  have hinitlen :
      (List.replicate (xValues res.best_bitvector.length).length (0 : Nat)).length =
        2 ^ res.best_bitvector.length := by
    simp [xValues_length]
  have hall : ∀ e ∈ res.freq.entries,
      decode e.1 <
        (List.replicate (xValues res.best_bitvector.length).length (0 : Nat)).length := by
    intro e he
    rw [hinitlen]
    have hlt := decode_lt e.1
    rwa [hlen e he] at hlt
  obtain ⟨hs, hhs⟩ := accumShots_isSome res.freq.entries _ hall
  refine ⟨hs, hhs, ?_, xValues_length _, ?_⟩
  · rw [accumShots_some_length _ _ _ hhs, hinitlen]
  · rw [accumShots_some_sum _ _ _ hhs]
    simp

/-- Witness for C4, at the concrete two-bit result. -/
theorem shots_histogram_totals_witness :
    (∀ e ∈ resEx.freq.entries, e.1.length = resEx.best_bitvector.length) ∧
    ∃ hs, plotShotsHeights resEx = some hs ∧
      hs.length = 2 ^ resEx.best_bitvector.length ∧
      (xValues resEx.best_bitvector.length).length = 2 ^ resEx.best_bitvector.length ∧
      hs.sum = (resEx.freq.entries.map fun e => e.2.2).sum :=
  ⟨by decide, shots_histogram_totals resEx (by decide)⟩

/-! ### C5: per-bucket histogram semantics -/

/-- C5: when every candidate is `n`-bit, `plot_shots_histogram` lists the
`2 ^ n` bitstrings in binary-counting order (the `i`-th element of
`x_values` is `n` bits long and decodes, MSB first, to `i`), and the height
of bucket `i` is the sum of the occurrence counts of exactly the entries
whose candidate decodes to `i` (zero when no entry matches, since the sum
over the empty filter is zero). -/
theorem shots_histogram_bucket_semantics (res : QAOAResult)
    (hlen : ∀ e ∈ res.freq.entries, e.1.length = res.best_bitvector.length) :
    ∃ hs, plotShotsHeights res = some hs ∧
      hs.length = (xValues res.best_bitvector.length).length ∧
      (∀ i, ∀ hi : i < (xValues res.best_bitvector.length).length,
        decode ((xValues res.best_bitvector.length).get ⟨i, hi⟩) = i ∧
        ((xValues res.best_bitvector.length).get ⟨i, hi⟩).length =
          res.best_bitvector.length) ∧
      (∀ i, ∀ hi : i < hs.length,
        hs.get ⟨i, hi⟩ =
          ((res.freq.entries.filter fun e => decode e.1 == i).map
            fun e => e.2.2).sum) := by
  have hall : ∀ e ∈ res.freq.entries,
      decode e.1 <
        (List.replicate (xValues res.best_bitvector.length).length (0 : Nat)).length := by
    intro e he
    rw [List.length_replicate, xValues_length]
    have hlt := decode_lt e.1
    rwa [hlen e he] at hlt
  obtain ⟨hs, hhs⟩ := accumShots_isSome res.freq.entries _ hall
  refine ⟨hs, hhs, ?_, xValues_get _, ?_⟩
  · rw [accumShots_some_length _ _ _ hhs, List.length_replicate]
  · intro i hi
    have hrep := hi
    rw [accumShots_some_length _ _ _ hhs, List.length_replicate] at hrep
    have hrep' : i <
        (List.replicate (xValues res.best_bitvector.length).length (0 : Nat)).length := by
      rw [List.length_replicate]
      exact hrep
    have h1 := accumShots_some_get _ _ _ hhs i hrep' hi
    rw [h1]
    simp

/-- Witness for C5, at the concrete two-bit result. -/
theorem shots_histogram_bucket_semantics_witness :
    (∀ e ∈ resEx.freq.entries, e.1.length = resEx.best_bitvector.length) ∧
    ∃ hs, plotShotsHeights resEx = some hs ∧
      hs.length = (xValues resEx.best_bitvector.length).length ∧
      (∀ i, ∀ hi : i < (xValues resEx.best_bitvector.length).length,
        decode ((xValues resEx.best_bitvector.length).get ⟨i, hi⟩) = i ∧
        ((xValues resEx.best_bitvector.length).get ⟨i, hi⟩).length =
          resEx.best_bitvector.length) ∧
      (∀ i, ∀ hi : i < hs.length,
        hs.get ⟨i, hi⟩ =
          ((resEx.freq.entries.filter fun e => decode e.1 == i).map
            fun e => e.2.2).sum) :=
  ⟨by decide, shots_histogram_bucket_semantics resEx (by decide)⟩

/-! ### C10: implicit index-safety of the histogram accumulation -/

/-- C10: under the precondition that every candidate in the table has the
best bitvector's length `n`, every decoded index is strictly below `2 ^ n`,
so the accumulation into the height list stays in bounds and succeeds; and
without the precondition the indexing can fail, as witnessed by a result
whose table holds a candidate longer than the best bitvector. -/
theorem shots_histogram_index_in_bounds (res : QAOAResult)
    (hlen : ∀ e ∈ res.freq.entries, e.1.length = res.best_bitvector.length) :
    (∀ e ∈ res.freq.entries, decode e.1 < 2 ^ res.best_bitvector.length) ∧
    (∃ hs, plotShotsHeights res = some hs) ∧
    (∃ bad : QAOAResult,
      ¬ (∀ e ∈ bad.freq.entries, e.1.length = bad.best_bitvector.length) ∧
      plotShotsHeights bad = none) := by
  refine ⟨?_, ?_, badRes, by decide, rfl⟩
  · intro e he
    have hlt := decode_lt e.1
    rwa [hlen e he] at hlt
  · have hall : ∀ e ∈ res.freq.entries,
        decode e.1 <
          (List.replicate (xValues res.best_bitvector.length).length (0 : Nat)).length := by
      intro e he
      rw [List.length_replicate, xValues_length]
      have hlt := decode_lt e.1
      rwa [hlen e he] at hlt
    exact accumShots_isSome res.freq.entries _ hall

/-- Witness for C10, at the concrete two-bit result. -/
theorem shots_histogram_index_in_bounds_witness :
    (∀ e ∈ resEx.freq.entries, e.1.length = resEx.best_bitvector.length) ∧
    ((∀ e ∈ resEx.freq.entries, decode e.1 < 2 ^ resEx.best_bitvector.length) ∧
     (∃ hs, plotShotsHeights resEx = some hs) ∧
     (∃ bad : QAOAResult,
       ¬ (∀ e ∈ bad.freq.entries, e.1.length = bad.best_bitvector.length) ∧
       plotShotsHeights bad = none)) :=
  ⟨by decide, shots_histogram_index_in_bounds resEx (by decide)⟩

end QAOA
